import Mathlib

/-!
Verification of the cocktAIe matching-and-diversification engine.

The definitions below shallowly embed the engine's operations.  The three
Python snippets present in the repository's design document
(`calculate_universality_penalty`, `_get_recent_recommendations` /
the recommendation-history dictionary, and
`_diversity_weighted_random_select`) are translated directly; the parts of
the engine whose code is not in the repository (the scoring engine, the
recency penalty, the history-append operation, the cluster index) are
modelled from the specification and marked as such in their doc comments.
Scores are modelled as rational numbers.
-/

namespace Cocktaie

/-- The fixed list of "common" need tags from the design document's
`COMMON_NEEDS` constant. -/
def COMMON_NEEDS : List String :=
  ["comfort", "relaxation", "casual fun", "ease", "approachability"]

/-- Lower-casing of a tag string, character by character, mirroring
Python's `str.lower()` on the ASCII tags used by the catalog. -/
def lowerTag (s : String) : String :=
  ⟨s.data.map Char.toLower⟩

/-- Number of an item's need tags that fall (case-insensitively) in
`COMMON_NEEDS`, as computed by `calculate_universality_penalty`. -/
def commonNeedCount (needs : List String) : Nat :=
  (needs.filter (fun n => lowerTag n ∈ COMMON_NEEDS)).length

/-- Embedding of `calculate_universality_penalty` from the design document:
`needs` with at least two common tags get factor 0.75, exactly one common
tag gets 0.9, otherwise 1.0. -/
def calculate_universality_penalty (needs : List String) : ℚ :=
  if commonNeedCount needs ≥ 2 then 0.75
  else if commonNeedCount needs = 1 then 0.9
  else 1.0

/-- Modelled from the spec: the Session History append operation is not in
the repository source (only the history dictionary and its getter are); §3
of the spec says entries are appended most-recent-last and evicted from the
front once the length exceeds the bound `H`. -/
def appendHistory (H : Nat) (hist : List String) (name : String) : List String :=
  let h := hist ++ [name]
  h.drop (h.length - H)

/-- Run a sequence of selections against one session's history, appending
each selected name in order. -/
def runSelections (H : Nat) (hist : List String) (names : List String) : List String :=
  names.foldl (appendHistory H) hist

/-- Embedding of the probability computation in
`_diversity_weighted_random_select`: base probability `0.1 / K` plus score
bonus `0.9 * ((s - min) / range) / K`, followed by normalization by the
total (which is also what `random.choices` does with raw weights). -/
def codeProbs (scores : List ℚ) : List ℚ :=
  let maxScore := scores.headI
  let minScore := scores.getLastI
  let scoreRange := if maxScore > minScore then maxScore - minScore else 1.0
  let k : ℚ := scores.length
  let weights := scores.map (fun s => 0.1 / k + 0.9 * ((s - minScore) / scoreRange) / k)
  let total := weights.sum
  weights.map (fun w => w / total)

/-- The score spread used by `_diversity_weighted_random_select`
(`max - min`, replaced by 1.0 when the scores are all equal). -/
def scoreSpread (scores : List ℚ) : ℚ :=
  if scores.headI > scores.getLastI then scores.headI - scores.getLastI else 1.0

/-- Sum of the deviations of the scores from the minimum score. -/
def devSum (scores : List ℚ) : ℚ :=
  (scores.map (fun s => s - scores.getLastI)).sum

/-- Common denominator of the normalized selection probabilities actually
computed by `_diversity_weighted_random_select`. -/
def probDenom (scores : List ℚ) : ℚ :=
  0.1 * scores.length * scoreSpread scores + 0.9 * devSum scores

/-- The selection probability formula claimed by the spec for candidate
score `s`: `ε/K + (1-ε) * (s - min) / Σ(s_j - min)` with `ε = 0.1`. -/
def specProb (scores : List ℚ) (s : ℚ) : ℚ :=
  0.1 / scores.length + (1 - 0.1) * (s - scores.getLastI) / devSum scores

/-- Model of drawing from a weight list as `random.choices` does: the
uniform draw `u` (in `[0, total)`) is compared against cumulative weights
and the first candidate whose cumulative weight exceeds `u` is returned. -/
def pickByWeight {α : Type} : List α → List ℚ → ℚ → Option α
  | [], _, _ => none
  | c :: _, [], _ => some c
  | c :: cs, w :: ws, u => if u < w then some c else pickByWeight cs ws (u - w)

/-- Embedding of `_diversity_weighted_random_select` for `k = 1`: a pool of
size at most `k` is returned as is; otherwise one candidate is drawn from
the normalized weights using the random source `u`. -/
def selectTopOne (cands : List (String × ℚ)) (u : ℚ) : List (String × ℚ) :=
  if cands.length ≤ 1 then cands
  else
    match pickByWeight cands (codeProbs (cands.map Prod.snd)) u with
    | some c => [c]
    | none => []

/-- Position of `name` in the session history, 1-indexed from the end
(`1` = most recently selected), `none` when absent. -/
def positionFromEnd (hist : List String) (name : String) : Option Nat :=
  (hist.reverse.findIdx? (fun x => x = name)).map (fun i => i + 1)

/-- Modelled from the spec: the recency penalty (§4.2 step 2) is not in the
repository source (the design document only says "apply a 0.3-0.5 score
reduction"); the spec gives factor 1.0 when the item is absent from the
session history, and `1 - 0.5 * (H - p + 1) / H` with floor 0.5 when it is
present at 1-indexed-from-the-end position `p`. -/
def recencyFactor (H : Nat) (hist : List String) (name : String) : ℚ :=
  match positionFromEnd hist name with
  | none => 1.0
  | some p => max 0.5 (1 - 0.5 * ((H : ℚ) - p + 1) / H)

lemma appendHistory_length_le (H : Nat) (hist : List String) (name : String) :
    (appendHistory H hist name).length ≤ H := by
  simp [appendHistory]
  omega

lemma appendHistory_suffix (H : Nat) (hist : List String) (name : String) :
    appendHistory H hist name <:+ hist ++ [name] :=
  List.drop_suffix _ _

lemma runSelections_suffix (H : Nat) (names : List String) (hist : List String) :
    runSelections H hist names <:+ hist ++ names := by
  induction names generalizing hist with
  | nil => simp [runSelections]
  | cons n ns ih =>
    have h1 : runSelections H hist (n :: ns) = runSelections H (appendHistory H hist n) ns := rfl
    have h3 : appendHistory H hist n ++ ns <:+ (hist ++ [n]) ++ ns := by
      obtain ⟨t, ht⟩ := appendHistory_suffix H hist n
      exact ⟨t, by rw [← List.append_assoc, ht]⟩
    rw [h1]
    have h4 := (ih (appendHistory H hist n)).trans h3
    simpa [List.append_assoc] using h4

lemma runSelections_length_le (H : Nat) (names : List String) (hist : List String)
    (h : names ≠ []) : (runSelections H hist names).length ≤ H := by
  induction names generalizing hist with
  | nil => cases h rfl
  | cons n ns ih =>
    cases ns with
    | nil => simpa [runSelections] using appendHistory_length_le H hist n
    | cons m ms => exact ih (appendHistory H hist n) (by simp)

/-- C3: after `H + 5` selections in one session (starting from the fresh,
empty history), the stored history length is at most `H`, and the history
is a suffix of the selection sequence (the oldest entries having been
evicted from the front). -/
theorem session_history_bounded (H : Nat) (names : List String)
    (h : names.length = H + 5) :
    (runSelections H [] names).length ≤ H ∧ runSelections H [] names <:+ names := by
  have hne : names ≠ [] := by
    intro he
    rw [he] at h
    simp at h
  refine ⟨runSelections_length_le H names [] hne, ?_⟩
  simpa using runSelections_suffix H names []

/-- Witness for `session_history_bounded` at a concrete selection sequence. -/
theorem session_history_bounded_witness :
    (runSelections 2 [] ["a", "b", "c", "d", "e", "f", "g"]).length ≤ 2 ∧
      runSelections 2 [] ["a", "b", "c", "d", "e", "f", "g"] <:+
        ["a", "b", "c", "d", "e", "f", "g"] :=
  session_history_bounded 2 ["a", "b", "c", "d", "e", "f", "g"] (by decide)

/-- C2: the genericity penalty factor is determined solely by how many of
the item's need tags fall in the common-need set: zero common tags give
factor 1.0, exactly one gives 0.9, and two or more give 0.75. -/
theorem universality_penalty_spec (needs needs2 : List String) :
    (commonNeedCount needs = 0 → calculate_universality_penalty needs = 1.0) ∧
    (commonNeedCount needs = 1 → calculate_universality_penalty needs = 0.9) ∧
    (2 ≤ commonNeedCount needs → calculate_universality_penalty needs = 0.75) ∧
    (commonNeedCount needs = commonNeedCount needs2 →
      calculate_universality_penalty needs = calculate_universality_penalty needs2) := by
  unfold calculate_universality_penalty
  refine ⟨fun h => ?_, fun h => ?_, fun h => ?_, fun h => ?_⟩
  · rw [h]
    norm_num
  · rw [h]
    norm_num
  · rw [if_pos h]
  · rw [h]

/-- Witness for `universality_penalty_spec` at concrete tag lists. -/
theorem universality_penalty_spec_witness :
    calculate_universality_penalty ["comfort", "ease"] = 0.75 :=
  (universality_penalty_spec ["comfort", "ease"] []).2.2.1 (by decide)

lemma recencyFactor_eq_of_pos (H : Nat) (hH : 1 ≤ H) (hist : List String)
    (name : String) (p : Nat) (hp : positionFromEnd hist name = some p)
    (hp1 : 1 ≤ p) (_hpH : p ≤ H) :
    recencyFactor H hist name = 1 - 0.5 * ((H : ℚ) - p + 1) / H := by
  have hHQ : (0 : ℚ) < H := by
    have : (1 : ℚ) ≤ H := by exact_mod_cast hH
    linarith
  have hpQ : (1 : ℚ) ≤ p := by exact_mod_cast hp1
  have hq : ((H : ℚ) - p + 1) / H ≤ 1 := by
    rw [div_le_one hHQ]
    linarith
  rw [recencyFactor, hp]
  have hle : (0.5 : ℚ) ≤ 1 - 0.5 * ((H : ℚ) - p + 1) / H := by
    rw [mul_div_assoc]
    linarith
  simpa using max_eq_right hle

/-- C4: the recency penalty factor is 1.0 when the item is absent from the
session history; when present at 1-indexed-from-the-end position `p ≤ H`
it equals `1 - 0.5 * (H - p + 1) / H` (the 0.5 floor never binds in
range); and the factor strictly decreases with recency (a more recent
position yields a strictly smaller factor). -/
theorem recency_penalty_spec (H : Nat) (hH : 1 ≤ H) :
    (∀ hist name, name ∉ hist → recencyFactor H hist name = 1.0) ∧
    (∀ hist name p, positionFromEnd hist name = some p → 1 ≤ p → p ≤ H →
      recencyFactor H hist name = 1 - 0.5 * ((H : ℚ) - p + 1) / H) ∧
    (∀ hist hist2 name name2 p p2, positionFromEnd hist name = some p →
      positionFromEnd hist2 name2 = some p2 → 1 ≤ p → p < p2 → p2 ≤ H →
      recencyFactor H hist name < recencyFactor H hist2 name2) := by
  refine ⟨fun hist name hname => ?_, fun hist name p hp hp1 hpH =>
    recencyFactor_eq_of_pos H hH hist name p hp hp1 hpH,
    fun hist hist2 name name2 p p2 hp hp2 hp1 hlt hp2H => ?_⟩
  · have hnone : hist.reverse.findIdx? (fun x => x = name) = none := by
      rw [List.findIdx?_eq_none_iff]
      intro x hx
      have hxh : x ∈ hist := List.mem_reverse.mp hx
      simp only [decide_eq_false_iff_not]
      intro he
      exact hname (he ▸ hxh)
    simp [recencyFactor, positionFromEnd, hnone]
  · have hHQ : (0 : ℚ) < H := by
      have : (1 : ℚ) ≤ H := by exact_mod_cast hH
      linarith
    rw [recencyFactor_eq_of_pos H hH hist name p hp hp1 (le_of_lt (lt_of_lt_of_le hlt hp2H)),
      recencyFactor_eq_of_pos H hH hist2 name2 p2 hp2 (le_trans hp1 (le_of_lt hlt)) hp2H]
    have hltQ : (p : ℚ) < p2 := by exact_mod_cast hlt
    have hdiv : ((H : ℚ) - p2 + 1) / H < ((H : ℚ) - p + 1) / H := by
      apply div_lt_div_of_pos_right ?_ hHQ
      linarith
    rw [mul_div_assoc, mul_div_assoc]
    linarith

/-- Witness for `recency_penalty_spec` at concrete histories with the
default bound `H = 10`. -/
theorem recency_penalty_spec_witness :
    recencyFactor 10 ["a", "b"] "c" = 1.0 ∧
      recencyFactor 10 ["b", "a"] "b" = 1 - 0.5 * ((10 : ℚ) - 2 + 1) / 10 ∧
      recencyFactor 10 ["a", "b"] "b" < recencyFactor 10 ["b", "a"] "b" := by
  obtain ⟨h1, h2, h3⟩ := recency_penalty_spec 10 (by norm_num)
  exact ⟨h1 ["a", "b"] "c" (by decide),
    h2 ["b", "a"] "b" 2 (by decide) (by norm_num) (by norm_num),
    h3 ["a", "b"] ["b", "a"] "b" "b" 1 2 (by decide) (by decide) (by norm_num)
      (by norm_num) (by norm_num)⟩

lemma sum_map_linear (l : List ℚ) (a b m : ℚ) :
    (l.map (fun s => a + b * (s - m))).sum =
      l.length * a + b * (l.map (fun s => s - m)).sum := by
  induction l with
  | nil => simp
  | cons x xs ih =>
    simp only [List.map_cons, List.sum_cons, ih, List.length_cons]
    push_cast
    ring

lemma scoreSpread_pos (scores : List ℚ) : 0 < scoreSpread scores := by
  unfold scoreSpread
  split_ifs with h
  · linarith
  · norm_num

lemma lengthQ_pos (scores : List ℚ) (hne : scores ≠ []) : 0 < (scores.length : ℚ) := by
  have h1 : 0 < scores.length := List.length_pos.mpr hne
  exact_mod_cast h1

lemma devSum_nonneg (scores : List ℚ) (hlb : ∀ s ∈ scores, scores.getLastI ≤ s) :
    0 ≤ devSum scores := by
  apply List.sum_nonneg
  intro x hx
  obtain ⟨s, hs, rfl⟩ := List.mem_map.mp hx
  have h2 := hlb s hs
  linarith

lemma probDenom_pos (scores : List ℚ) (hne : scores ≠ [])
    (hlb : ∀ s ∈ scores, scores.getLastI ≤ s) : 0 < probDenom scores := by
  unfold probDenom
  have h1 : 0 < (0.1 : ℚ) * scores.length * scoreSpread scores :=
    mul_pos (mul_pos (by norm_num) (lengthQ_pos scores hne)) (scoreSpread_pos scores)
  have h2 := devSum_nonneg scores hlb
  nlinarith

lemma codeProbs_closed (scores : List ℚ) (hne : scores ≠ [])
    (hlb : ∀ s ∈ scores, scores.getLastI ≤ s) :
    codeProbs scores = scores.map (fun s =>
      (0.1 * scoreSpread scores + 0.9 * (s - scores.getLastI)) / probDenom scores) := by
  have hK := lengthQ_pos scores hne
  have hR := scoreSpread_pos scores
  have hD := probDenom_pos scores hne hlb
  have hKne : (scores.length : ℚ) ≠ 0 := ne_of_gt hK
  have hRne : scoreSpread scores ≠ 0 := ne_of_gt hR
  have hDne : probDenom scores ≠ 0 := ne_of_gt hD
  have hif : (if scores.headI > scores.getLastI then scores.headI - scores.getLastI
      else (1.0 : ℚ)) = scoreSpread scores := rfl
  simp only [codeProbs, hif]
  have hmap : scores.map (fun s => 0.1 / (scores.length : ℚ) +
        0.9 * ((s - scores.getLastI) / scoreSpread scores) / scores.length) =
      scores.map (fun s => 0.1 / (scores.length : ℚ) +
        (0.9 / (scoreSpread scores * scores.length)) * (s - scores.getLastI)) :=
    List.map_congr_left (fun s _ => by field_simp)
  rw [hmap, List.map_map]
  have hsum : (scores.map (fun s => 0.1 / (scores.length : ℚ) +
        (0.9 / (scoreSpread scores * scores.length)) * (s - scores.getLastI))).sum =
      probDenom scores / ((scores.length : ℚ) * scoreSpread scores) := by
    rw [sum_map_linear]
    unfold probDenom devSum
    field_simp
    ring
  rw [hsum]
  apply List.map_congr_left
  intro s _
  simp only [Function.comp]
  rw [div_div_eq_mul_div, div_eq_div_iff hDne hDne]
  field_simp
  ring

lemma codeProbs_floor (scores : List ℚ) (hne : scores ≠ [])
    (hub : ∀ s ∈ scores, s ≤ scores.headI) (hlb : ∀ s ∈ scores, scores.getLastI ≤ s) :
    ∀ q ∈ codeProbs scores, 0.1 / (scores.length : ℚ) ≤ q := by
  rw [codeProbs_closed scores hne hlb]
  intro q hq
  obtain ⟨s, hs, rfl⟩ := List.mem_map.mp hq
  have hK := lengthQ_pos scores hne
  have hR := scoreSpread_pos scores
  have hD := probDenom_pos scores hne hlb
  have hSK : devSum scores ≤ (scores.length : ℚ) * scoreSpread scores := by
    have hsub : ∀ x ∈ scores.map (fun s => s - scores.getLastI), x ≤ scoreSpread scores := by
      intro x hx
      obtain ⟨t, ht, rfl⟩ := List.mem_map.mp hx
      have h1 := hub t ht
      have h2 := hlb t ht
      unfold scoreSpread
      split_ifs with h
      · linarith
      · push_neg at h
        linarith
    have h3 := List.sum_le_card_nsmul _ _ hsub
    simpa [devSum, nsmul_eq_mul, mul_comm] using h3
  have hsm : 0 ≤ s - scores.getLastI := by
    have := hlb s hs
    linarith
  rw [div_le_div_iff₀ hK hD]
  unfold probDenom
  nlinarith [mul_nonneg (le_of_lt hK) hsm]

/-- C1 counterexample: for the two-candidate pool with adjusted scores
`[1, 0]`, the probability the code assigns to the top candidate is
`10/11`, not the value `0.1/2 + 0.9 * 1 / 1 = 0.95` claimed by the spec
formula: the code normalizes `0.1/K + 0.9 * ((s - min)/range)/K` by its
total instead. -/
theorem selector_prob_counterexample :
    (codeProbs [1, 0]).headI ≠ specProb [1, 0] 1 := by
  have h1 : (codeProbs [1, 0]).headI = 10 / 11 := by
    norm_num [codeProbs, List.getLastI]
  have h2 : specProb [1, 0] 1 = 19 / 20 := by
    norm_num [specProb, devSum, List.getLastI]
  rw [h1, h2]
  norm_num

/-- C1 (amended): for a nonempty pool whose scores lie between the last
(minimum) and first (maximum) entries, the probability the Selector
assigns to the candidate with score `s` is
`(ε·range + (1−ε)·(s − min)) / (ε·K·range + (1−ε)·Σ_j(score_j − min))`
with `ε = 0.1` and `range = max − min` (1 when all scores are equal);
every pool member still has probability at least `ε/K`. -/
theorem selector_prob_amended (scores : List ℚ) (hne : scores ≠ [])
    (hub : ∀ s ∈ scores, s ≤ scores.headI) (hlb : ∀ s ∈ scores, scores.getLastI ≤ s) :
    codeProbs scores = scores.map (fun s =>
      (0.1 * scoreSpread scores + 0.9 * (s - scores.getLastI)) / probDenom scores) ∧
    ∀ q ∈ codeProbs scores, 0.1 / (scores.length : ℚ) ≤ q :=
  ⟨codeProbs_closed scores hne hlb, codeProbs_floor scores hne hub hlb⟩

/-- Witness for `selector_prob_amended` on the concrete pool `[1, 0]`. -/
theorem selector_prob_amended_witness :
    codeProbs [1, 0] = [(1:ℚ), 0].map (fun s =>
      (0.1 * scoreSpread [1, 0] + 0.9 * (s - ([(1:ℚ), 0]).getLastI)) / probDenom [1, 0]) ∧
    (0.1 / ((2:ℕ) : ℚ) ≤ (codeProbs [1, 0]).headI) := by
  obtain ⟨h1, h2⟩ := selector_prob_amended [1, 0] (by exact List.cons_ne_nil _ _)
    (by norm_num [List.getLastI]) (by norm_num [List.getLastI])
  refine ⟨h1, ?_⟩
  apply h2
  rw [h1]
  norm_num [scoreSpread, probDenom, devSum, List.getLastI]

lemma getLastI_replicate (m : Nat) (s : ℚ) : (List.replicate (m + 1) s).getLastI = s := by
  rw [List.getLastI_eq_getLast?, List.getLast?_eq_getLast _ (by simp),
    List.getLast_replicate_succ]

lemma codeProbs_replicate (n : Nat) (s : ℚ) :
    codeProbs (List.replicate n s) = List.replicate n (1 / (n : ℚ)) := by
  cases n with
  | zero => rfl
  | succ m =>
    have hh : (List.replicate (m + 1) s).headI = s := rfl
    have hl := getLastI_replicate m s
    simp only [codeProbs, hh, hl, lt_self_iff_false, gt_iff_lt, if_neg,
      List.map_replicate, List.sum_replicate, List.length_replicate]
    congr 1
    have hm : ((m : ℚ) + 1) ≠ 0 := by positivity
    push_cast
    rw [nsmul_eq_mul]
    push_cast
    field_simp
    ring

/-- C5: when all adjusted scores in the pool are equal, the Selector's
draw is uniform: every pool member gets probability `1/K`. -/
theorem selector_uniform (scores : List ℚ) (s : ℚ) (h : ∀ x ∈ scores, x = s) :
    codeProbs scores = List.replicate scores.length (1 / (scores.length : ℚ)) := by
  have h1 : scores = List.replicate scores.length s := List.eq_replicate_iff.mpr ⟨rfl, h⟩
  conv_lhs => rw [h1]
  exact codeProbs_replicate scores.length s

/-- Witness for `selector_uniform` on the concrete pool `[2, 2, 2]`. -/
theorem selector_uniform_witness :
    codeProbs [2, 2, 2] = List.replicate 3 (1 / (3 : ℚ)) := by
  have h := selector_uniform [2, 2, 2] 2 (by norm_num)
  simpa using h

/-- C6: a candidate pool of size exactly one is returned as is, for every
random source `u`: the single item is selected with probability 1. -/
theorem selector_singleton (c : String × ℚ) (u : ℚ) : selectTopOne [c] u = [c] := by
  simp [selectTopOne]

/-- Caller-supplied emotional profile (§3 of the spec): three dimension
values and a set of need tags. -/
structure EmotionalProfile where
  energy : ℚ
  tension : ℚ
  control : ℚ
  needs : List String

/-- A catalog item (§3 of the spec); the opaque recipe/description payload
is irrelevant to the engine and omitted. -/
structure CatalogItem where
  name : String
  category : String
  energy : ℚ
  tension : ℚ
  control : ℚ
  needs : List String

/-- Engine configuration (§6 of the spec): scoring weights, pool size `K`
and history bound `H`; the common-need set and the `ε = 0.1` floor are
hard-coded in the repository's snippets and kept fixed here. -/
structure Config where
  w_dim : ℚ
  w_need : ℚ
  K : Nat
  H : Nat

/-- Modelled from the spec: the Scoring Engine (§4.1) is not in the
repository source; dimension score `1 / (1 + Σ (profile.d - item.d)²)`. -/
def dimensionScore (p : EmotionalProfile) (it : CatalogItem) : ℚ :=
  1 / (1 + ((p.energy - it.energy) ^ 2 + (p.tension - it.tension) ^ 2 +
    (p.control - it.control) ^ 2))

/-- Modelled from the spec: need overlap
`|profile.needs ∩ item.needs| / max 1 |item.needs|` (§4.1). -/
def needScore (p : EmotionalProfile) (it : CatalogItem) : ℚ :=
  ((it.needs.filter (fun n => n ∈ p.needs)).length : ℚ) / ((max 1 it.needs.length : ℕ) : ℚ)

/-- Modelled from the spec: raw score
`w_dim * dimension_score + w_need * need_score` (§4.1). -/
def rawScore (cfg : Config) (p : EmotionalProfile) (it : CatalogItem) : ℚ :=
  cfg.w_dim * dimensionScore p it + cfg.w_need * needScore p it

/-- Modelled from the spec: tertile bucketing of a dimension value in
`[1,5]` into three bands (§4.3). -/
def bucket (x : ℚ) : Nat :=
  if x < 7 / 3 then 0 else if x < 11 / 3 then 1 else 2

/-- Modelled from the spec: the need-group id of an item, a canonicalized
sorted lowercase tag signature (§4.3). -/
def needGroup (needs : List String) : List String :=
  List.insertionSort (fun a b => a ≤ b) (needs.map lowerTag)

/-- Modelled from the spec: the cluster key of an item, three discretized
dimension buckets plus the need-group id (§4.3). -/
def clusterKey (it : CatalogItem) : (Nat × Nat × Nat) × List String :=
  ((bucket it.energy, bucket it.tension, bucket it.control), needGroup it.needs)

/-- Number of dimension buckets on which two cluster keys differ. -/
def dimDiffCount (k1 k2 : Nat × Nat × Nat) : Nat :=
  (if k1.1 = k2.1 then 0 else 1) + (if k1.2.1 = k2.2.1 then 0 else 1) +
    (if k1.2.2 = k2.2.2 then 0 else 1)

/-- Two cluster keys qualify for the diversity bonus when they differ on
at least two dimension buckets or on the need-group id (§4.2 step 3). -/
def keysDiffer (k1 k2 : (Nat × Nat × Nat) × List String) : Bool :=
  decide (2 ≤ dimDiffCount k1.1 k2.1) || decide (k1.2 ≠ k2.2)

/-- Modelled from the spec: the cluster-diversity bonus (§4.2 step 3), a
10% uplift of the raw score when the candidate's cluster key differs
sufficiently from that of the session's most recent selection. -/
def clusterBonus (catalog : List CatalogItem) (hist : List String)
    (it : CatalogItem) (raw : ℚ) : ℚ :=
  match hist.getLast? with
  | none => 0
  | some lastName =>
    match catalog.find? (fun c => c.name = lastName) with
    | none => 0
    | some prev => if keysDiffer (clusterKey prev) (clusterKey it) then 0.1 * raw else 0

/-- Modelled from the spec: the adjusted score (§4.2):
`raw * genericity_factor * recency_factor + cluster_bonus`, with the
genericity factor taken from the repository's
`calculate_universality_penalty`. -/
def adjustedScore (cfg : Config) (p : EmotionalProfile) (catalog : List CatalogItem)
    (hist : List String) (it : CatalogItem) : ℚ :=
  rawScore cfg p it * calculate_universality_penalty it.needs *
      recencyFactor cfg.H hist it.name + clusterBonus catalog hist it (rawScore cfg p it)

/-- Candidates paired with their catalog insertion index and adjusted
score. -/
def scoredCandidates (cfg : Config) (p : EmotionalProfile) (catalog : List CatalogItem)
    (hist : List String) : List (Nat × CatalogItem × ℚ) :=
  catalog.enum.map (fun e => (e.1, e.2, adjustedScore cfg p catalog hist e.2))

/-- Ranking order: strictly greater adjusted score first, ties broken by
catalog insertion index (stable ranking, §4.2). -/
def rankLE (a b : Nat × CatalogItem × ℚ) : Prop :=
  b.2.2 < a.2.2 ∨ (a.2.2 = b.2.2 ∧ a.1 ≤ b.1)

instance : DecidableRel rankLE := fun a b =>
  decidable_of_iff (b.2.2 < a.2.2 ∨ (a.2.2 = b.2.2 ∧ a.1 ≤ b.1)) Iff.rfl

instance : IsTotal (Nat × CatalogItem × ℚ) rankLE := by
  constructor
  intro a b
  rcases lt_trichotomy a.2.2 b.2.2 with h | h | h
  · exact Or.inr (Or.inl h)
  · rcases Nat.le_total a.1 b.1 with h2 | h2
    · exact Or.inl (Or.inr ⟨h, h2⟩)
    · exact Or.inr (Or.inr ⟨h.symm, h2⟩)
  · exact Or.inl (Or.inl h)

instance : IsTrans (Nat × CatalogItem × ℚ) rankLE := by
  constructor
  intro a b c hab hbc
  rcases hab with h1 | ⟨h1e, h1l⟩ <;> rcases hbc with h2 | ⟨h2e, h2l⟩
  · exact Or.inl (lt_trans h2 h1)
  · exact Or.inl (by rw [← h2e]; exact h1)
  · exact Or.inl (by rw [h1e]; exact h2)
  · exact Or.inr ⟨h1e.trans h2e, le_trans h1l h2l⟩

/-- The adjusted-score ranking: all scored candidates sorted by `rankLE`
(descending score, stable on catalog order). -/
def rankedCandidates (cfg : Config) (p : EmotionalProfile) (catalog : List CatalogItem)
    (hist : List String) : List (Nat × CatalogItem × ℚ) :=
  List.insertionSort rankLE (scoredCandidates cfg p catalog hist)

/-- Draw one winner from the top-`K` pool using the random source `u`
(degenerate pools are returned directly, mirroring
`_diversity_weighted_random_select`). -/
def drawWinner (pool : List (Nat × CatalogItem × ℚ)) (u : ℚ) :
    Option (Nat × CatalogItem × ℚ) :=
  if pool.length ≤ 1 then pool.head?
  else pickByWeight pool (codeProbs (pool.map (fun t => t.2.2))) u

/-- One full engine invocation: the pre-randomization ranking is produced,
the top-`K` pool is formed, and the winner is drawn with the caller's
random source; the ranking trace is returned alongside the winner. -/
def recommendTrace (cfg : Config) (p : EmotionalProfile) (catalog : List CatalogItem)
    (hist : List String) (u : ℚ) :
    Option (Nat × CatalogItem × ℚ) × List (Nat × CatalogItem × ℚ) :=
  let ranked := rankedCandidates cfg p catalog hist
  (drawWinner (ranked.take cfg.K) u, ranked)

/-- C7: the adjusted-score ranking is a pure function of profile, catalog,
configuration and history: it is identical across two runs with different
random sources (randomness enters only the final draw); it contains
exactly the scored catalog (as a permutation); and ties in adjusted score
are always resolved by catalog insertion order. -/
theorem ranking_deterministic (cfg : Config) (p : EmotionalProfile)
    (catalog : List CatalogItem) (hist : List String) (u1 u2 : ℚ) :
    (recommendTrace cfg p catalog hist u1).2 = (recommendTrace cfg p catalog hist u2).2 ∧
    (rankedCandidates cfg p catalog hist).Perm (scoredCandidates cfg p catalog hist) ∧
    (rankedCandidates cfg p catalog hist).Pairwise
      (fun a b => a.2.2 = b.2.2 → a.1 ≤ b.1) := by
  refine ⟨rfl, List.perm_insertionSort rankLE _, ?_⟩
  have h := List.sorted_insertionSort rankLE (scoredCandidates cfg p catalog hist)
  apply List.Pairwise.imp ?_ h
  intro a b hr he
  rcases hr with hlt | ⟨_, hle⟩
  · rw [he] at hlt
    exact absurd hlt (lt_irrefl _)
  · exact hle

/-- C8: scoring is total and unclamped: an empty profile needs set yields
need score 0 (and a raw score reduced to the dimension term), and the
dimension score is well-defined and lies in `(0, 1]` for every numeric
profile, including dimension values outside `[1, 5]`. -/
theorem scoring_total_spec (cfg : Config) (p : EmotionalProfile) (it : CatalogItem) :
    (p.needs = [] → needScore p it = 0) ∧
    (p.needs = [] → rawScore cfg p it = cfg.w_dim * dimensionScore p it) ∧
    0 < dimensionScore p it ∧ dimensionScore p it ≤ 1 := by
  have hns : p.needs = [] → needScore p it = 0 := by
    intro h
    unfold needScore
    rw [h]
    simp
  refine ⟨hns, fun h => ?_, ?_, ?_⟩
  · unfold rawScore
    rw [hns h]
    ring
  · unfold dimensionScore
    positivity
  · unfold dimensionScore
    rw [div_le_one (by positivity)]
    nlinarith [sq_nonneg (p.energy - it.energy), sq_nonneg (p.tension - it.tension),
      sq_nonneg (p.control - it.control)]

/-- Witness for `scoring_total_spec`: a profile with an empty needs set
and dimension values well outside `[1, 5]` is scored without error. -/
theorem scoring_total_spec_witness :
    needScore ⟨7, 0, -3, []⟩ ⟨"Mojito", "classic", 3, 2, 4, ["fresh"]⟩ = 0 ∧
      rawScore ⟨0.6, 1.5, 10, 10⟩ ⟨7, 0, -3, []⟩ ⟨"Mojito", "classic", 3, 2, 4, ["fresh"]⟩ =
        0.6 * dimensionScore ⟨7, 0, -3, []⟩ ⟨"Mojito", "classic", 3, 2, 4, ["fresh"]⟩ ∧
      0 < dimensionScore ⟨7, 0, -3, []⟩ ⟨"Mojito", "classic", 3, 2, 4, ["fresh"]⟩ := by
  obtain ⟨h1, h2, h3, _⟩ :=
    scoring_total_spec ⟨0.6, 1.5, 10, 10⟩ ⟨7, 0, -3, []⟩ ⟨"Mojito", "classic", 3, 2, 4, ["fresh"]⟩
  exact ⟨h1 rfl, h2 rfl, h3⟩

/-- The optional layout fields of a processing result used by
`ResultCard` (`layout?.final_card_url`, `layout?.ink_style_image_url`);
`none` models an absent (undefined/null) field. -/
structure LayoutInfo where
  final_card_url : Option String
  ink_style_image_url : Option String

/-- The optional presentation fields of a processing result used by
`ResultCard`. -/
structure PresentationInfo where
  final_presentation_image_url : Option String
  cocktail_image_url : Option String

/-- The slice of a `ProcessingResult` that determines the card image. -/
structure ProcessingResult where
  layout : Option LayoutInfo
  presentation : Option PresentationInfo

/-- JavaScript `a || b` on an optional string `a`: `a` is kept exactly
when it is present and non-empty (the empty string is falsy). -/
def jsOr (a : Option String) (b : String) : String :=
  match a with
  | some s => if s = "" then b else s
  | none => b

/-- Embedding of `cardImageUrl` in `ResultCard.tsx`:
`layout?.final_card_url || layout?.ink_style_image_url ||
presentation?.final_presentation_image_url ||
presentation?.cocktail_image_url || ''`. -/
def cardImageUrl (r : ProcessingResult) : String :=
  jsOr (r.layout.bind LayoutInfo.final_card_url)
    (jsOr (r.layout.bind LayoutInfo.ink_style_image_url)
      (jsOr (r.presentation.bind PresentationInfo.final_presentation_image_url)
        (jsOr (r.presentation.bind PresentationInfo.cocktail_image_url) "")))

/-- Embedding of the download button's `disabled` binding in
`ResultCard.tsx`: `isDownloading || !cardImageUrl`. -/
def downloadDisabled (isDownloading : Bool) (r : ProcessingResult) : Bool :=
  isDownloading || cardImageUrl r == ""

/-- First usable URL of a candidate list: the first entry that is present
and non-empty, else the empty string. -/
def firstUsable : List (Option String) → String
  | [] => ""
  | o :: rest =>
    match o with
    | some s => if s = "" then firstUsable rest else s
    | none => firstUsable rest

/-- The fallback chain exactly as the claim words it: `final_card_url`,
else `ink_style_image_url`, else `final_presentation_image_url`, else
`cocktail_image_url`, else empty. -/
def claimedCardUrl (r : ProcessingResult) : String :=
  firstUsable [r.layout.bind LayoutInfo.final_card_url,
    r.layout.bind LayoutInfo.ink_style_image_url,
    r.presentation.bind PresentationInfo.final_presentation_image_url,
    r.presentation.bind PresentationInfo.cocktail_image_url]

/-- C9 counterexample: while a download is in progress the button is
disabled even though the fallback chain yields a non-empty URL, so
"disabled exactly when the chain yields the empty string" fails. -/
theorem card_download_counterexample :
    downloadDisabled true ⟨some ⟨some "card.png", none⟩, none⟩ = true ∧
      cardImageUrl ⟨some ⟨some "card.png", none⟩, none⟩ ≠ "" := by
  constructor
  · rfl
  · decide

/-- C9 (amended): the displayed card image URL follows the fixed fallback
order (final card, ink-style image, final presentation image, cocktail
image, empty), and the download button is disabled exactly when that
chain yields the empty string or a download is already in progress. -/
lemma firstUsable_cons (o : Option String) (l : List (Option String)) :
    firstUsable (o :: l) = jsOr o (firstUsable l) := by
  cases o with
  | none => rfl
  | some s => rfl

theorem card_download_spec (d : Bool) (r : ProcessingResult) :
    cardImageUrl r = claimedCardUrl r ∧
      (downloadDisabled d r = true ↔ (d = true ∨ cardImageUrl r = "")) := by
  constructor
  · unfold cardImageUrl claimedCardUrl
    rw [firstUsable_cons, firstUsable_cons, firstUsable_cons, firstUsable_cons]
    rfl
  · simp [downloadDisabled]

/-- The two input modes of the voice/text input screen. -/
inductive InputMode where
  | voice
  | text
  deriving DecidableEq

/-- JavaScript `String.prototype.trim()`: strip whitespace from both ends
of the string, modelled structurally on the character list. -/
def jsTrim (s : String) : String :=
  ⟨((s.data.dropWhile Char.isWhitespace).reverse.dropWhile Char.isWhitespace).reverse⟩

/-- The component state of `VoiceInputScreen` relevant to submission:
input mode, the recorded audio blob (if any), the recording and uploading
flags, and the text input. -/
structure VoiceInputState where
  inputMode : InputMode
  audioBlob : Option String
  isRecording : Bool
  isUploading : Bool
  textInput : String

/-- Embedding of `canSubmit` in `VoiceInputScreen`: in voice mode an audio
blob must exist and recording must have stopped; in text mode the trimmed
text must be non-empty. -/
def canSubmit (s : VoiceInputState) : Bool :=
  match s.inputMode with
  | InputMode.voice => s.audioBlob.isSome && !s.isRecording
  | InputMode.text => decide (0 < (jsTrim s.textInput).length)

/-- Embedding of the submit button's `disabled` binding:
`!canSubmit || isUploading || isRecording`. -/
def submitDisabled (s : VoiceInputState) : Bool :=
  !canSubmit s || s.isUploading || s.isRecording

/-- Embedding of the validation-failure branches at the top of
`handleSubmit`: in voice mode it rejects when no audio blob exists
("please record audio first"); in text mode it rejects when the trimmed
text is empty ("please enter your story"). -/
def handleSubmitRejects (s : VoiceInputState) : Bool :=
  match s.inputMode with
  | InputMode.voice => s.audioBlob.isNone
  | InputMode.text => jsTrim s.textInput == ""

/-- C10: whenever submission is triggered through the enabled submit
button, the validation-failure branches of `handleSubmit` are
unreachable: voice mode guarantees a non-null audio blob with recording
stopped, and text mode guarantees non-whitespace text. -/
theorem submit_validation_unreachable (s : VoiceInputState)
    (h : submitDisabled s = false) :
    handleSubmitRejects s = false ∧
      (s.inputMode = InputMode.voice → s.audioBlob.isSome = true ∧ s.isRecording = false) ∧
      (s.inputMode = InputMode.text → jsTrim s.textInput ≠ "") := by
  unfold submitDisabled at h
  rw [Bool.or_eq_false_iff, Bool.or_eq_false_iff] at h
  obtain ⟨⟨h1, h2⟩, h3⟩ := h
  rw [Bool.not_eq_false'] at h1
  unfold canSubmit at h1
  unfold handleSubmitRejects
  cases hm : s.inputMode with
  | voice =>
    rw [hm] at h1
    rw [Bool.and_eq_true] at h1
    obtain ⟨ha, _⟩ := h1
    refine ⟨?_, fun _ => ⟨ha, h3⟩, fun ht => ?_⟩
    · obtain ⟨a, hba⟩ := Option.isSome_iff_exists.mp ha
      rw [hba]
      rfl
    · cases ht
  | text =>
    rw [hm] at h1
    rw [decide_eq_true_iff] at h1
    have hne : jsTrim s.textInput ≠ "" := by
      intro he
      rw [he] at h1
      exact absurd h1 (by norm_num)
    refine ⟨?_, fun hv => ?_, fun _ => hne⟩
    · rw [beq_eq_false_iff_ne]
      exact hne
    · cases hv

/-- Witness for `submit_validation_unreachable`: one enabled text-mode
state and one enabled voice-mode state, neither of which is rejected. -/
theorem submit_validation_unreachable_witness :
    handleSubmitRejects ⟨InputMode.text, none, false, false, " hello "⟩ = false ∧
      handleSubmitRejects ⟨InputMode.voice, some "blob", false, false, ""⟩ = false :=
  ⟨(submit_validation_unreachable ⟨InputMode.text, none, false, false, " hello "⟩
      (by decide)).1,
    (submit_validation_unreachable ⟨InputMode.voice, some "blob", false, false, ""⟩
      (by decide)).1⟩

end Cocktaie

